import Mathlib

/-!
Verification of the request-handling pipeline of a small HTTP/1.0 server
written in C (sources: `main.c`, `request.c`, `handler.c`, `utils.c`,
`single.c`, `forking.c`).  C strings are embedded as `List Char`; the
byte-level string functions used by the server (`strtok`, `strchr`,
`strrchr`, `strncmp`, `fgets`, ...) are given faithful pure models, and
each request-handling function is translated into a pure Lean function
over those models.  Filesystem and process effects (`realpath`, `stat`,
`access`, file contents, subprocess output, socket writes) enter as
explicit oracle parameters.
-/

namespace CServer

/-- C strings (byte sequences without the terminating NUL). -/
abbrev Str := List Char

/-- C `isspace` in the POSIX locale: space, tab, newline, vertical tab,
form feed, carriage return. -/
def c_isspace (c : Char) : Bool :=
  c = ' ' || c = '\t' || c = '\n' || c = '\x0b' || c = '\x0c' || c = '\r'

/-- Membership of a character in a delimiter set, as used by `strtok`. -/
def isDelim (dl : Str) (c : Char) : Bool := dl.any (fun d => d == c)

/-! ## strtok and line models

`strtok(s, dl)` skips leading delimiters, returns the next maximal
delimiter-free run, and null-terminates it.  A sequence of `strtok`
calls with the same delimiter set enumerates `tokenize dl s`. -/

/-- The list of maximal delimiter-free runs of a string, in order:
the tokens produced by iterated `strtok` with delimiter set `dl`. -/
def tokenize (dl : Str) : Str → List Str
  | [] => []
  | c :: s =>
    if isDelim dl c then tokenize dl s
    else
      match s with
      | [] => [[c]]
      | d :: _ =>
        if isDelim dl d then [c] :: tokenize dl s
        else
          match tokenize dl s with
          | [] => [[c]]
          | t :: ts => (c :: t) :: ts

/-! ## HTTP statuses (main.h / utils.c `http_status_string`) -/

/-- The `Status` enumeration of the server. -/
inductive Status where
  | ok
  | badRequest
  | notFound
  | internalServerError
  | teapot
deriving DecidableEq, Repr

/-- `http_status_string` from `utils.c`. -/
def http_status_string : Status → Str
  | .ok => "200 OK".toList
  | .badRequest => "400 Bad Request".toList
  | .notFound => "404 Not Found".toList
  | .internalServerError => "500 Internal Server Error".toList
  | .teapot => "418 I'm A Teapot".toList

/-! ## Path resolution (`utils.c`, `determine_request_path`)

`realpath(3)` is modelled as an abstract canonicalization oracle
`canon : Str → Option Str` (`none` = failure, e.g. nonexistent path).
`main.c` canonicalizes `RootPath` once at startup (`RootPath =
realpath(RootPath, ...)`), so the `rootPath` argument below stands for
the already-canonicalized document root.  `strncmp(rp, RootPath,
strlen(RootPath)) == 0` holds exactly when `RootPath` is a literal
prefix of `rp`, which is `List.isPrefixOf`. -/

/-- `determine_request_path` from `utils.c`: concatenate root and URI,
canonicalize, and keep the result only if the canonicalized root is a
literal string prefix of it. -/
def determine_request_path (canon : Str → Option Str) (rootPath uri : Str) :
    Option Str :=
  match canon (rootPath ++ uri) with
  | none => none
  | some rp => if rootPath.isPrefixOf rp then some rp else none

/-! ## Dispatch (`handler.c`, `handle_request`)

The `stat` result is modelled by the flags the dispatcher inspects
(`S_ISDIR`, `S_ISREG`, `S_IRUSR`), and `access(path, X_OK) == 0` by a
Boolean oracle.  The routing decision of `handle_request` is captured
by a `Dispatch` value; the `Status` eventually returned by the chosen
handler is modelled with each handler separately. -/

/-- The `stat` metadata inspected by the dispatcher. -/
structure StatInfo where
  isDir : Bool
  isReg : Bool
  irusr : Bool
deriving DecidableEq, Repr

/-- Routing outcome of `handle_request`. -/
inductive Dispatch where
  | browse
  | cgi
  | file
  | error (s : Status)
deriving DecidableEq, Repr

/-- The classification performed by `handle_request` on a resolved path
(lines 46-68 of `handler.c`): stat failure → 500; directory → browse;
regular and executable → CGI; regular, not executable, readable → file;
anything else → 500. -/
def dispatch_request (stat : Option StatInfo) (xok : Bool) : Dispatch :=
  match stat with
  | none => .error .internalServerError
  | some sb =>
    if sb.isDir then .browse
    else if sb.isReg then
      if xok then .cgi
      else if sb.irusr then .file
      else .error .internalServerError
    else .error .internalServerError

/-- Routing of `handle_request` from `handler.c`: parse failure → 400,
absent resolved path → 404, otherwise classify the resolved path. -/
def handle_request (parseOk : Bool) (path : Option Str)
    (stat : Str → Option StatInfo) (xok : Str → Bool) : Dispatch :=
  if !parseOk then .error .badRequest
  else
    match path with
    | none => .error .notFound
    | some p => dispatch_request (stat p) (xok p)

/-! ## Request-line parsing (`request.c`, `parse_request_method`)

The request line is read with `fgets` (modelled as an optional line,
`none` when no line can be read).  The code then runs
`strtok(buffer, " \t\n")` twice to obtain method and URI token, and if
the URI token contains `?` it runs `strtok` on the text after the first
`?` with delimiters `"# \n\t"` to obtain the query, then
`strtok(uri, "?")` for the URI.  The query `strtok` writes a NUL into
the shared buffer when it terminates a token at a delimiter, which the
subsequent URI `strtok` observes; the model reproduces this.  When a
`strtok` in the query branch returns NULL, the code calls
`strdup(NULL)` — undefined behavior — modelled as `MethodResult.ub`. -/

/-- Delimiters of the first two `strtok` calls: `" \t\n"`. -/
def wsDelims : Str := [' ', '\t', '\n']

/-- Delimiters of the query `strtok`: `"# \n\t"`. -/
def queryDelims : Str := ['#', ' ', '\n', '\t']

/-- Outcome of `parse_request_method`: clean failure (return -1),
undefined behavior (`strdup(NULL)`), or success with method, URI and
query strings. -/
inductive MethodResult where
  | fail
  | ub
  | ok (method uri query : Str)
deriving DecidableEq, Repr

/-- The query-extraction branch of `parse_request_method`, acting on the
method token and the URI token (`strchr(uri, '?')`, then
`strtok(query, "# \n\t")`, then `strtok(uri, "?")` on the buffer as
mutated by the query `strtok`). -/
def parse_uri_query (m u : Str) : MethodResult :=
  if u.any (fun c => c == '?') then
    let rest := (u.dropWhile (fun c => !(c == '?'))).tail
    let skip := rest.takeWhile (isDelim queryDelims)
    let core := rest.dropWhile (isDelim queryDelims)
    match core with
    | [] => .ub
    | _ :: _ =>
      let q := core.takeWhile (fun c => !isDelim queryDelims c)
      let afterq := core.dropWhile (fun c => !isDelim queryDelims c)
      let ubuf :=
        if afterq.isEmpty then u
        else u.takeWhile (fun c => !(c == '?')) ++ '?' :: (skip ++ q)
      match ubuf.dropWhile (fun c => c == '?') with
      | [] => .ub
      | uc => .ok m (uc.takeWhile (fun c => !(c == '?'))) q
  else .ok m u []

/-- `parse_request_method` from `request.c`. -/
def parse_request_method (line : Option Str) : MethodResult :=
  match line with
  | none => .fail
  | some buf =>
    match tokenize wsDelims buf with
    | m :: u :: _ => parse_uri_query m u
    | _ => .fail

/-! ## Header parsing (`request.c`, `parse_request_headers`)

The connection stream is modelled as the list of raw lines `fgets`
would deliver in order (each including its line terminator).  The loop
condition is `fgets(...) && strlen(buffer) > 2`: end of stream or any
line of raw length at most 2 ends the loop with success.  Each
remaining line is `chomp`ed, must contain `:`, and is split at the
first `:`; the new header is pushed on the front of the list. -/

/-- Modelled from the spec: `chomp` comes from the repository's missing
`main.h`; per the spec, parsed lines are "terminated by a line-ending
sequence", which `chomp` strips before the line is split into name and
value.  It is modelled as removing the trailing CR/LF sequence. -/
def chomp (s : Str) : Str :=
  (s.reverse.dropWhile (fun c => c == '\r' || c == '\n')).reverse

/-- `skip_whitespace` from `utils.c`: advance past leading `isspace`
characters. -/
def skip_whitespace (s : Str) : Str := s.dropWhile c_isspace

/-- The name/value pair extracted from one raw header line: name is the
text before the first `:` of the chomped line, value the text after it
with leading whitespace skipped. -/
def headerPair (l : Str) : Str × Str :=
  let b := chomp l
  (b.takeWhile (fun c => !(c == ':')),
    skip_whitespace (b.dropWhile (fun c => !(c == ':'))).tail)

/-- The header-parsing loop of `parse_request_headers`, carrying the
current (front-extended) header list; `none` models returning -1. -/
def parse_headers_loop : List Str → List (Str × Str) → Option (List (Str × Str))
  | [], acc => some acc
  | l :: ls, acc =>
    if l.length ≤ 2 then some acc
    else
      if (chomp l).any (fun c => c == ':') then
        parse_headers_loop ls (headerPair l :: acc)
      else none

/-- `parse_request_headers` from `request.c`: the resulting value of
`r->headers` (`none` models parse failure). -/
def parse_request_headers (lines : List Str) : Option (List (Str × Str)) :=
  parse_headers_loop lines []

/-! ## Mimetype resolution (`utils.c`, `determine_mimetype`)

The mimetype table file is modelled as its list of lines (`none` models
an unopenable `MimeTypesPath`), each split into whitespace-separated
tokens.  The `WHITESPACE` macro comes from the missing `main.h`; per
the spec the table lines hold "whitespace-separated extension tokens",
and the delimiters are modelled as `" \t\n"`, matching the parser's
whitespace set. -/

/-- Split a path at its last `.` (the pointer computed by
`strrchr(path, '.')`): `some (pre, ext)` with
`path = pre ++ '.' :: ext` and no `.` in `ext`; `none` when the path
contains no `.`. -/
def lastDotSplit : Str → Option (Str × Str)
  | [] => none
  | c :: s =>
    match lastDotSplit s with
    | some (p, e) => some (c :: p, e)
    | none => if c = '.' then some ([], s) else none

/-- Whether one table line claims an extension: some token after the
first one equals it exactly (case-sensitively). -/
def lineMatches (ext line : Str) : Bool :=
  match tokenize wsDelims line with
  | [] => false
  | _ :: exts => decide (ext ∈ exts)

/-- The table scan of `determine_mimetype`: the content type (first
token) of the first line whose extension tokens contain `ext`. -/
def scanTable (table : List Str) (ext : Str) : Option Str :=
  match table with
  | [] => none
  | line :: rest =>
    match tokenize wsDelims line with
    | [] => scanTable rest ext
    | m :: exts => if ext ∈ exts then some m else scanTable rest ext

/-- `determine_mimetype` from `utils.c`: the default is returned when
the path has no `.`, when the last `.` is the path's first character
(`ext == path`), when the table cannot be opened, or when no line
matches; otherwise the first matching line's content type. -/
def determine_mimetype (table : Option (List Str)) (defaultMime path : Str) :
    Str :=
  match lastDotSplit path with
  | none => defaultMime
  | some ([], _) => defaultMime
  | some (_ :: _, ext) =>
    match table with
    | none => defaultMime
    | some t => (scanTable t ext).getD defaultMime

/-! ## CGI handler (`handler.c`, `handle_cgi_request`)

The subprocess's standard output is modelled as the list of lines its
`fgets` loop would deliver (each nonempty, newline-terminated except
possibly the last).  The loop condition is
`fgets(buffer, BUFSIZ, pfs) && strlen(buffer) > 0`, and the copy is
`fprintf(r->file, "%s", buffer)`, which writes up to the first NUL
byte. -/

/-- The copy loop of `handle_cgi_request`: concatenation of the emitted
bytes.  `strlen(buffer) > 0` fails only when the line starts with a NUL
byte, which ends the loop. -/
def cgi_copy : List Str → Str
  | [] => []
  | l :: ls =>
    if (l.takeWhile (fun c => !(c == '\x00'))).isEmpty then []
    else l.takeWhile (fun c => !(c == '\x00')) ++ cgi_copy ls

/-- The `HTTP_*` environment name the header loop of
`handle_cgi_request` assigns for a header name (`none` when the header
is not forwarded).  Note the code maps `Accept-Language` to
`HTTP_ACCEPT`, not `HTTP_ACCEPT_LANGUAGE` (handler.c line 244). -/
def headerEnvName (n : Str) : Option Str :=
  if n = "Host".toList then some "HTTP_HOST".toList
  else if n = "User-Agent".toList then some "HTTP_USER_AGENT".toList
  else if n = "Accept".toList then some "HTTP_ACCEPT".toList
  else if n = "Accept-Language".toList then some "HTTP_ACCEPT".toList
  else if n = "Accept-Encoding".toList then some "HTTP_ACCEPT_ENCODING".toList
  else if n = "Connection".toList then some "HTTP_CONNECTION".toList
  else none

/-- The sequence of `setenv(name, value, 1)` calls performed by
`handle_cgi_request` before `popen`, in order: the eight fixed
variables, then one call per forwarded header (the header list is
walked from its head). -/
def cgi_setenv_list (root query host port method uri path sport : Str)
    (headers : List (Str × Str)) : List (Str × Str) :=
  [("DOCUMENT_ROOT".toList, root), ("QUERY_STRING".toList, query),
   ("REMOTE_ADDR".toList, host), ("REMOTE_PORT".toList, port),
   ("REQUEST_METHOD".toList, method), ("REQUEST_URI".toList, uri),
   ("SCRIPT_FILENAME".toList, path), ("SERVER_PORT".toList, sport)] ++
    headers.filterMap (fun h => (headerEnvName h.1).map (fun n => (n, h.2)))

/-- The resulting environment after a sequence of `setenv(..., 1)`
calls: the value of the last call for the name, if any. -/
def envGet (env : List (Str × Str)) (name : Str) : Option Str :=
  (env.reverse.find? (fun p => decide (p.1 = name))).map (fun p => p.2)

/-! ## Static-file handler (`handler.c`, `handle_file_request`)

The file is modelled by the list of chunks its `fread` loop returns
(`none` models `fopen` failure); the socket by a write oracle telling
whether the i-th `fwrite` writes anything (`fwrite(...) <= 0` aborts
the stream). -/

/-- The `fread`/`fwrite` loop: bytes written and whether all writes
succeeded (the first failed write aborts the loop). -/
def stream_chunks (writeOk : Nat → Bool) : Nat → List Str → Str × Bool
  | _, [] => ([], true)
  | i, ch :: rest =>
    if writeOk i then
      (ch ++ (stream_chunks writeOk (i + 1) rest).1,
        (stream_chunks writeOk (i + 1) rest).2)
    else ([], false)

/-- The response prefix written by `handle_file_request` before the
body: status line and resolved Content-Type. -/
def file_response_headers (mimetype : Str) : Str :=
  "HTTP/1.0 ".toList ++ http_status_string .ok ++ "\r\n".toList ++
    "Content-type: ".toList ++ mimetype ++ "\r\n\r\n".toList

/-- Outcome of `handle_file_request`: either a returned status together
with the bytes written to the connection, or undefined behavior.  When
`fopen` fails, the code jumps to `fail:` with `fs == NULL` and executes
`fclose(fs)` (handler.c lines 173-177 and 202-204) — `fclose(NULL)` is
undefined behavior (a crash on glibc) reached before `handle_error` —
so that path never returns a status. -/
inductive FileResult where
  | ub
  | resp (status : Status) (written : Str)
deriving DecidableEq, Repr

/-- The status a `FileResult` returns, `none` when execution never
returns cleanly (undefined behavior). -/
def FileResult.statusOf : FileResult → Option Status
  | .ub => none
  | .resp s _ => some s

/-- `handle_file_request` from `handler.c`.  `fopen` failure reaches
`fclose(NULL)` before any header is written (`.ub`); a failed `fwrite`
aborts the body mid-stream (there `fs` is a valid stream, so the
`fail:` cleanup is well defined and `handle_error` yields 500). -/
def handle_file_request (file : Option (List Str)) (mimetype : Str)
    (writeOk : Nat → Bool) : FileResult :=
  match file with
  | none => .ub
  | some chunks =>
    if (stream_chunks writeOk 0 chunks).2 then
      .resp .ok
        (file_response_headers mimetype ++ (stream_chunks writeOk 0 chunks).1)
    else
      .resp .internalServerError
        (file_response_headers mimetype ++ (stream_chunks writeOk 0 chunks).1)

/-! ## Directory-listing handler (`handler.c`, `handle_browse_request`)

`scandir(path, &entries, filter_curdir, alphasort)` is modelled as
sorting the filtered entry names with the lexicographic byte order
(`alphasort` compares with `strcoll`/`strcmp`); the HTML emission is
captured by the per-entry link target, label, and thumbnail flag. -/

/-- `filter_curdir` from `handler.c`: keep every entry except `.`. -/
def filter_curdir (name : Str) : Bool := decide (name ≠ ".".toList)

/-- The separator inserted between the request URI and the entry name:
empty when the URI already ends in `/`. -/
def browse_separator (uri : Str) : Str :=
  if uri.getLast? = some '/' then [] else ['/']

/-- `strncmp(mimetype, "image/", 6) == 0`. -/
def is_image (mimetype : Str) : Bool :=
  decide (mimetype.take 6 = "image/".toList)

/-- One emitted directory entry: the link target (`webpath`), the link
label (the entry name), and whether a thumbnail `<img>` is emitted. -/
structure BrowseEntry where
  webpath : Str
  name : Str
  thumbnail : Bool
deriving DecidableEq, Repr

/-- The entry items emitted by `handle_browse_request`, in emission
order, for a directory with the given entry names. -/
def browse_items (uri : Str) (entries : List Str) (table : Option (List Str))
    (defaultMime : Str) : List BrowseEntry :=
  (List.insertionSort (· ≤ ·) (entries.filter filter_curdir)).map
    (fun f =>
      ⟨uri ++ browse_separator uri ++ f, f,
        is_image (determine_mimetype table defaultMime f)⟩)

/-! ## Theorems -/

/-! ### Helper lemmas on tokens and scanning -/

theorem takeWhile_append_token {p : Char → Bool} :
    ∀ (A : Str) (b : Char) (B : Str), (∀ a ∈ A, p a = true) → p b = false →
      (A ++ b :: B).takeWhile p = A
  | [], b, B, _, hb => by simp [List.takeWhile_cons, hb]
  | a :: A, b, B, h, hb => by
    have ha : p a = true := h a (by simp)
    simp only [List.cons_append, List.takeWhile_cons, ha, if_true]
    rw [takeWhile_append_token A b B (fun x hx => h x (by simp [hx])) hb]

theorem dropWhile_append_token {p : Char → Bool} :
    ∀ (A : Str) (b : Char) (B : Str), (∀ a ∈ A, p a = true) → p b = false →
      (A ++ b :: B).dropWhile p = b :: B
  | [], b, B, _, hb => by simp [List.dropWhile_cons, hb]
  | a :: A, b, B, h, hb => by
    have ha : p a = true := h a (by simp)
    simp only [List.cons_append, List.dropWhile_cons, ha, if_true]
    exact dropWhile_append_token A b B (fun x hx => h x (by simp [hx])) hb

theorem dropWhile_all_false {p : Char → Bool} :
    ∀ (A : Str), (∀ a ∈ A, p a = false) → A.dropWhile p = A
  | [], _ => rfl
  | a :: A, h => by
    have ha : p a = false := h a (by simp)
    simp [List.dropWhile_cons, ha]

theorem takeWhile_congr_on {p q : Char → Bool} :
    ∀ (A : Str), (∀ a ∈ A, p a = q a) → A.takeWhile p = A.takeWhile q
  | [], _ => rfl
  | a :: A, h => by
    have ha : p a = q a := h a (by simp)
    by_cases hq : q a = true
    · simp only [List.takeWhile_cons, ha, hq, if_true]
      rw [takeWhile_congr_on A (fun x hx => h x (by simp [hx]))]
    · have hq' : q a = false := by simpa using hq
      simp [List.takeWhile_cons, ha, hq']

theorem tokenize_cons_delim {dl : Str} {c : Char} (h : isDelim dl c = true)
    (s : Str) : tokenize dl (c :: s) = tokenize dl s := by
  cases s <;> simp [tokenize, h]

theorem tokenize_token {dl : Str} {d : Char} (hd : isDelim dl d = true) :
    ∀ (M R : Str), M ≠ [] → (∀ c ∈ M, isDelim dl c = false) →
      tokenize dl (M ++ d :: R) = M :: tokenize dl R
  | [], _, hM, _ => absurd rfl hM
  | [c], R, _, h => by
    have hc : isDelim dl c = false := h c (by simp)
    simp only [List.cons_append, List.nil_append]
    rw [show tokenize dl (c :: d :: R) = [c] :: tokenize dl (d :: R) by
      simp [tokenize, hc, hd]]
    rw [tokenize_cons_delim hd]
  | c :: c2 :: M, R, _, h => by
    have hc : isDelim dl c = false := h c (by simp)
    have hc2 : isDelim dl c2 = false := h c2 (by simp)
    have ih := tokenize_token hd (c2 :: M) R (by simp)
      (fun x hx => h x (List.mem_cons_of_mem c hx))
    simp only [List.cons_append] at ih ⊢
    rw [show tokenize dl (c :: c2 :: (M ++ d :: R)) =
        match tokenize dl (c2 :: (M ++ d :: R)) with
        | [] => [[c]]
        | t :: ts => (c :: t) :: ts by simp [tokenize, hc, hc2]]
    rw [ih]

/-- A character that is not request-line whitespace and not `#` is not a
query-string delimiter. -/
theorem not_queryDelim {c : Char} (hws : isDelim wsDelims c = false)
    (hh : c ≠ '#') : isDelim queryDelims c = false := by
  simp [isDelim, wsDelims, queryDelims] at hws ⊢
  exact ⟨fun h => hh h.symm, fun h => hws.1 h, fun h => hws.2.2 h,
    fun h => hws.2.1 h⟩

/-- Reduction of the query branch on a URI token `U?Q` whose query part
has a non-delimiter first character. -/
theorem parse_uri_query_with_query (m : Str) (u0 q0 : Char) (U2 Q2 : Str)
    (hu0q : u0 ≠ '?') (hU2q : ∀ c ∈ U2, c ≠ '?')
    (hq0 : isDelim queryDelims q0 = false)
    (hQws : ∀ c ∈ q0 :: Q2, isDelim wsDelims c = false) (hq0h : q0 ≠ '#') :
    parse_uri_query m (u0 :: (U2 ++ '?' :: q0 :: Q2)) =
      .ok m (u0 :: U2) ((q0 :: Q2).takeWhile (fun c => !(c == '#'))) := by
  have hu0b : (u0 == '?') = false := by simp [hu0q]
  have hA : ∀ a ∈ u0 :: U2, (fun c => !(c == '?')) a = true := by
    intro a ha
    rcases List.mem_cons.mp ha with ha | ha
    · subst ha; simp [hu0q]
    · simp [hU2q a ha]
  have hcond : ((u0 :: (U2 ++ '?' :: q0 :: Q2)).any (fun c => c == '?')) = true := by
    simp
  have hdrop : (u0 :: (U2 ++ '?' :: q0 :: Q2)).dropWhile (fun c => !(c == '?')) =
      '?' :: q0 :: Q2 := by
    have h := dropWhile_append_token (u0 :: U2) '?' (q0 :: Q2) hA (by simp)
    simpa using h
  have htake : ∀ X : Str,
      (u0 :: (U2 ++ '?' :: X)).takeWhile (fun c => !(c == '?')) = u0 :: U2 := by
    intro X
    have h := takeWhile_append_token (u0 :: U2) '?' X hA (by simp)
    simpa using h
  have hdropU : ∀ X : Str,
      (u0 :: (U2 ++ '?' :: X)).dropWhile (fun c => c == '?') =
        u0 :: (U2 ++ '?' :: X) := by
    intro X
    simp [List.dropWhile_cons, hu0b]
  have hskip : (q0 :: Q2).takeWhile (isDelim queryDelims) = [] := by
    simp [List.takeWhile_cons, hq0]
  have hcore : (q0 :: Q2).dropWhile (isDelim queryDelims) = q0 :: Q2 := by
    simp [List.dropWhile_cons, hq0]
  have hqcongr : (q0 :: Q2).takeWhile (fun c => !isDelim queryDelims c) =
      (q0 :: Q2).takeWhile (fun c => !(c == '#')) := by
    refine takeWhile_congr_on _ ?_
    intro a ha
    by_cases h : a = '#'
    · subst h; decide
    · have := not_queryDelim (hQws a ha) h
      simp [this, h]
  by_cases hae :
      (((q0 :: Q2).dropWhile (fun c => !isDelim queryDelims c)).isEmpty) = true
  · simp only [parse_uri_query, hcond, eq_self_iff_true, if_true, hdrop,
      List.tail_cons, hskip, hcore, hqcongr, hae, hdropU, htake,
      List.cons_append, List.nil_append]
  · have hae' :
        (((q0 :: Q2).dropWhile (fun c => !isDelim queryDelims c)).isEmpty) = false := by
      simpa using hae
    simp only [parse_uri_query, hcond, eq_self_iff_true, if_true, hdrop,
      List.tail_cons, hskip, hcore, hqcongr, hae', Bool.false_eq_true, if_false,
      htake, List.cons_append, List.nil_append, hdropU]

/-- Reduction of the query branch on a URI token without `?`. -/
theorem parse_uri_query_no_query (m u : Str) (h : ∀ c ∈ u, c ≠ '?') :
    parse_uri_query m u = .ok m u [] := by
  have hnc : (u.any (fun c => c == '?')) = false := by
    rw [List.any_eq_false]
    intro a ha
    simp [h a ha]
  simp [parse_uri_query, hnc]

/-- The query branch never produces a clean parse failure. -/
theorem parse_uri_query_ne_fail (m u : Str) : parse_uri_query m u ≠ .fail := by
  simp only [parse_uri_query]
  split
  · split
    · exact fun h => MethodResult.noConfusion h
    · split <;> exact fun h => MethodResult.noConfusion h
  · exact fun h => MethodResult.noConfusion h

/-- C3 (amended): for request lines `METHOD URI?QUERY HTTP/V`, parsing
succeeds with method = METHOD, uri = URI, and query = the text after
the first `?` up to the next `#`, provided the query segment between
`?` and the next `#`/whitespace is nonempty (the query `strtok` skips
leading `#` delimiters instead of returning an empty query, and passes
NULL to `strdup` when nothing follows).  For `METHOD URI HTTP/V` with
no `?` the query is empty, and clean parse failure happens exactly when
the line cannot be read or has fewer than two whitespace-separated
tokens. -/
theorem c3_request_line (M U Q T T2 : Str)
    (hM : M ≠ []) (hMws : ∀ c ∈ M, isDelim wsDelims c = false)
    (hU : U ≠ []) (hUws : ∀ c ∈ U, isDelim wsDelims c = false)
    (hUq : '?' ∉ U)
    (hQws : ∀ c ∈ Q, isDelim wsDelims c = false)
    (hQ : Q ≠ []) (hQh : Q.head? ≠ some '#') :
    parse_request_method (some (M ++ ' ' :: ((U ++ '?' :: Q) ++ ' ' :: T))) =
      .ok M U (Q.takeWhile (fun c => !(c == '#'))) ∧
    parse_request_method (some (M ++ ' ' :: (U ++ ' ' :: T2))) = .ok M U [] ∧
    (∀ buf, parse_request_method (some buf) = .fail ↔
      (tokenize wsDelims buf).length < 2) ∧
    parse_request_method none = .fail := by
  have hsp : isDelim wsDelims ' ' = true := by decide
  obtain ⟨q0, Q2, hQeq⟩ := List.exists_cons_of_ne_nil hQ
  obtain ⟨u0, U2, hUeq⟩ := List.exists_cons_of_ne_nil hU
  subst hQeq; subst hUeq
  have hu0q : u0 ≠ '?' := fun h => hUq (by simp [h])
  have hU2q : ∀ c ∈ U2, c ≠ '?' :=
    fun c hc h => hUq (List.mem_cons_of_mem u0 (h ▸ hc))
  have hq0h : q0 ≠ '#' := fun h => hQh (by simp [h])
  have hq0 : isDelim queryDelims q0 = false :=
    not_queryDelim (hQws q0 (by simp)) hq0h
  refine ⟨?_, ?_, ?_, rfl⟩
  · -- request line with query
    have h2 : tokenize wsDelims
        (((u0 :: U2) ++ '?' :: q0 :: Q2) ++ ' ' :: T) =
        ((u0 :: U2) ++ '?' :: q0 :: Q2) :: tokenize wsDelims T := by
      refine tokenize_token hsp _ T (by simp) ?_
      intro c hc
      rcases List.mem_append.mp hc with hc | hc
      · exact hUws c hc
      · rcases List.mem_cons.mp hc with hc | hc
        · subst hc; decide
        · exact hQws c hc
    have h1 : tokenize wsDelims
        (M ++ ' ' :: (((u0 :: U2) ++ '?' :: q0 :: Q2) ++ ' ' :: T)) =
        M :: ((u0 :: U2) ++ '?' :: q0 :: Q2) :: tokenize wsDelims T := by
      rw [tokenize_token hsp M _ hM hMws, h2]
    simp only [parse_request_method]
    rw [h1]
    exact parse_uri_query_with_query M u0 q0 U2 Q2 hu0q hU2q hq0 hQws hq0h
  · -- request line without query
    have h2 : tokenize wsDelims ((u0 :: U2) ++ ' ' :: T2) =
        (u0 :: U2) :: tokenize wsDelims T2 :=
      tokenize_token hsp _ T2 (by simp) hUws
    have h1 : tokenize wsDelims (M ++ ' ' :: ((u0 :: U2) ++ ' ' :: T2)) =
        M :: (u0 :: U2) :: tokenize wsDelims T2 := by
      rw [tokenize_token hsp M _ hM hMws, h2]
    simp only [parse_request_method]
    rw [h1]
    refine parse_uri_query_no_query M (u0 :: U2) ?_
    intro c hc
    rcases List.mem_cons.mp hc with hc | hc
    · simpa [hc] using hu0q
    · exact hU2q c hc
  · -- clean failure iff fewer than two tokens
    intro buf
    cases h : tokenize wsDelims buf with
    | nil => simp [parse_request_method, h]
    | cons m t =>
      cases t with
      | nil => simp [parse_request_method, h]
      | cons u t2 =>
        refine iff_of_false ?_ (by simp)
        intro hf
        simp only [parse_request_method] at hf
        rw [h] at hf
        exact parse_uri_query_ne_fail m u hf

/-- Witness for C3 at the request line `GET /a?q=1#frag HTTP/1.0`. -/
theorem c3_request_line_witness :
    parse_request_method (some ("GET".toList ++ ' ' ::
        (("/a".toList ++ '?' :: "q=1#frag".toList) ++ ' ' ::
          "HTTP/1.0\r\n".toList))) =
      .ok "GET".toList "/a".toList
        ("q=1#frag".toList.takeWhile (fun c => !(c == '#'))) ∧
    parse_request_method (some ("GET".toList ++ ' ' ::
        ("/b.html".toList ++ ' ' :: "HTTP/1.0\r\n".toList))) =
      .ok "GET".toList "/b.html".toList [] := by
  have h := c3_request_line "GET".toList "/a".toList "q=1#frag".toList
    "HTTP/1.0\r\n".toList "HTTP/1.0\r\n".toList
    (by decide) (by decide) (by decide) (by decide) (by decide)
    (by decide) (by decide) (by decide)
  refine ⟨h.1, ?_⟩
  have h2 := c3_request_line "GET".toList "/b.html".toList "q".toList
    "HTTP/1.0\r\n".toList "HTTP/1.0\r\n".toList
    (by decide) (by decide) (by decide) (by decide) (by decide)
    (by decide) (by decide) (by decide)
  exact h2.2.1

/-- Counterexample for C3 as stated: on `GET /x?#f HTTP/1.0` the claim
requires query = "" (everything after the first `?` up to the next
`#`), but the parser returns query = "f" because `strtok` skips the
leading `#` delimiter. -/
theorem c3_counterexample :
    parse_request_method (some "GET /x?#f HTTP/1.0\r\n".toList) =
      .ok "GET".toList "/x".toList "f".toList ∧
    "f".toList ≠ ([] : Str) := by
  exact ⟨by decide, by decide⟩

theorem dropWhile_stop {p : Char → Bool} :
    ∀ (A : Str) (b : Char) (B : Str), (∀ a ∈ A, p a = false) → p b = false →
      (A ++ b :: B).dropWhile p = A ++ b :: B
  | [], b, B, _, hb => by simp [List.dropWhile_cons, hb]
  | a :: A, b, B, h, hb => by
    have ha : p a = false := h a (by simp)
    simp only [List.cons_append, List.dropWhile_cons, ha, Bool.false_eq_true,
      if_false]

theorem any_colon_iff (l : Str) :
    (l.any (fun c => c == ':') = true) ↔ ':' ∈ l := by
  simp [List.any_eq_true]

theorem parse_headers_loop_good :
    ∀ (body : List Str) (blank : Str) (rest : List Str)
      (acc : List (Str × Str)),
      (∀ l ∈ body, ¬ l.length ≤ 2) → (∀ l ∈ body, ':' ∈ chomp l) →
      blank.length ≤ 2 →
      parse_headers_loop (body ++ blank :: rest) acc =
        some ((body.map headerPair).reverse ++ acc)
  | [], blank, rest, acc, _, _, hbl => by
    simp [parse_headers_loop, hbl]
  | l :: body, blank, rest, acc, hlen, hcolon, hbl => by
    have hl : ¬ l.length ≤ 2 := hlen l (by simp)
    have hc : (chomp l).any (fun c => c == ':') = true :=
      (any_colon_iff _).mpr (hcolon l (by simp))
    have ih := parse_headers_loop_good body blank rest (headerPair l :: acc)
      (fun x hx => hlen x (List.mem_cons_of_mem l hx))
      (fun x hx => hcolon x (List.mem_cons_of_mem l hx)) hbl
    simp only [List.cons_append, parse_headers_loop, if_neg hl, hc,
      eq_self_iff_true, if_true, List.append_eq]
    rw [ih]
    simp

theorem parse_headers_loop_bad :
    ∀ (body : List Str) (bad : Str) (rest : List Str)
      (acc : List (Str × Str)),
      (∀ l ∈ body, ¬ l.length ≤ 2) → (∀ l ∈ body, ':' ∈ chomp l) →
      ¬ bad.length ≤ 2 → ':' ∉ chomp bad →
      parse_headers_loop (body ++ bad :: rest) acc = none
  | [], bad, rest, acc, _, _, hbadlen, hbad => by
    have hbc : (chomp bad).any (fun c => c == ':') = false := by
      rw [Bool.eq_false_iff]
      intro h
      exact hbad ((any_colon_iff _).mp h)
    simp [parse_headers_loop, if_neg hbadlen, hbc]
  | l :: body, bad, rest, acc, hlen, hcolon, hbadlen, hbad => by
    have hl : ¬ l.length ≤ 2 := hlen l (by simp)
    have hc : (chomp l).any (fun c => c == ':') = true :=
      (any_colon_iff _).mpr (hcolon l (by simp))
    have ih := parse_headers_loop_bad body bad rest (headerPair l :: acc)
      (fun x hx => hlen x (List.mem_cons_of_mem l hx))
      (fun x hx => hcolon x (List.mem_cons_of_mem l hx)) hbadlen hbad
    simp only [List.cons_append, parse_headers_loop, if_neg hl, hc,
      eq_self_iff_true, if_true]
    exact ih

/-- C4 (amended): header parsing, on a block of raw-length-&gt;2 lines
terminated by a line of raw length ≤ 2, collects for each line the pair
(text before the first `:`, text after it with leading whitespace
removed and the trailing line-ending stripped), but pushes each new
header on the front of the collection, so the final collection is in
reverse order of receipt; it fails exactly when such a line lacks a
`:`. -/
theorem c4_header_parsing (body : List Str) (blank bad : Str)
    (rest rest2 : List Str)
    (hlen : ∀ l ∈ body, ¬ l.length ≤ 2)
    (hcolon : ∀ l ∈ body, ':' ∈ chomp l)
    (hbl : blank.length ≤ 2)
    (hbadlen : ¬ bad.length ≤ 2) (hbad : ':' ∉ chomp bad) :
    parse_request_headers (body ++ blank :: rest) =
      some ((body.map headerPair).reverse) ∧
    parse_request_headers (body ++ bad :: rest2) = none ∧
    (∀ (n v : Str), ':' ∉ n → (∀ c ∈ n, c ≠ '\r' ∧ c ≠ '\n') →
      (∀ c ∈ v, c ≠ '\r' ∧ c ≠ '\n') →
      headerPair (n ++ ':' :: (v ++ ['\r', '\n'])) =
        (n, v.dropWhile c_isspace)) := by
  refine ⟨?_, ?_, ?_⟩
  · have h := parse_headers_loop_good body blank rest [] hlen hcolon hbl
    simpa [parse_request_headers] using h
  · exact parse_headers_loop_bad body bad rest2 [] hlen hcolon hbadlen hbad
  · intro n v hn hncr hvcr
    have hcrlf : ∀ a ∈ v.reverse, (fun c => c == '\r' || c == '\n') a = false := by
      intro a ha
      have h := hvcr a (List.mem_reverse.mp ha)
      simp [h.1, h.2]
    have hstop := dropWhile_stop v.reverse ':' n.reverse hcrlf (by decide)
    have hch : chomp (n ++ ':' :: (v ++ ['\r', '\n'])) = n ++ ':' :: v := by
      simp only [chomp]
      rw [show (n ++ ':' :: (v ++ ['\r', '\n'])).reverse =
          '\n' :: '\r' :: (v.reverse ++ ':' :: n.reverse) by simp]
      rw [show List.dropWhile (fun c => c == '\r' || c == '\n')
            ('\n' :: '\r' :: (v.reverse ++ ':' :: n.reverse)) =
          List.dropWhile (fun c => c == '\r' || c == '\n')
            (v.reverse ++ ':' :: n.reverse) by simp]
      rw [hstop]
      simp
    have hcol : ∀ a ∈ n, (fun c => !(c == ':')) a = true := by
      intro a ha
      simp
      exact fun h => hn (h ▸ ha)
    have htn : (n ++ ':' :: v).takeWhile (fun c => !(c == ':')) = n :=
      takeWhile_append_token n ':' v hcol (by simp)
    have hdn : (n ++ ':' :: v).dropWhile (fun c => !(c == ':')) = ':' :: v :=
      dropWhile_append_token n ':' v hcol (by simp)
    simp only [headerPair, hch, htn, hdn, List.tail_cons, skip_whitespace]

/-- Witness for C4 at a concrete two-header block followed by a blank
line, and a colon-free block. -/
theorem c4_header_parsing_witness :
    parse_request_headers ["Host: x\r\n".toList, "\r\n".toList] =
      some [("Host".toList, "x".toList)] ∧
    parse_request_headers ["nocolon\r\n".toList, "\r\n".toList] = none := by
  have h := c4_header_parsing ["Host: x\r\n".toList] "\r\n".toList
    "nocolon\r\n".toList [] ["\r\n".toList]
    (by decide) (by decide) (by decide) (by decide) (by decide)
  exact ⟨h.1, h.2.1⟩

/-- Counterexample for C4 as stated: two headers received in the order
`A`, `B` are stored as `[B, A]` — the reverse of the order received,
because each parsed header is prepended to the list. -/
theorem c4_counterexample :
    parse_request_headers
        ["A: 1\r\n".toList, "B: 2\r\n".toList, "\r\n".toList] =
      some [("B".toList, "2".toList), ("A".toList, "1".toList)] ∧
    some [("B".toList, "2".toList), ("A".toList, "1".toList)] ≠
      some [("A".toList, "1".toList), ("B".toList, "2".toList)] := by
  exact ⟨by decide, by decide⟩

/-- C10: any input line of raw length at most 2 — blank or not — ends
header parsing with success, is not recorded as a header, and behaves
exactly like the genuine blank line CRLF. -/
theorem c10_short_line_ends_headers (l : Str) (rest : List Str)
    (h : l.length ≤ 2) :
    parse_request_headers (l :: rest) = some [] ∧
    (∀ acc, parse_headers_loop (l :: rest) acc = some acc) ∧
    parse_request_headers (l :: rest) =
      parse_request_headers (['\r', '\n'] :: rest) := by
  have hloop : ∀ acc, parse_headers_loop (l :: rest) acc = some acc := by
    intro acc
    simp [parse_headers_loop, h]
  refine ⟨hloop [], hloop, ?_⟩
  show parse_headers_loop (l :: rest) [] = parse_headers_loop (['\r', '\n'] :: rest) []
  rw [hloop]
  simp [parse_headers_loop]

/-- Witness for C10: the non-blank line `"a\n"` (raw length 2, no
colon) terminates header parsing successfully without being recorded,
even with further header lines behind it. -/
theorem c10_short_line_ends_headers_witness :
    parse_request_headers ["a\n".toList, "X: 1\r\n".toList] = some [] ∧
    parse_request_headers ["a\n".toList, "X: 1\r\n".toList] =
      parse_request_headers (['\r', '\n'] :: ["X: 1\r\n".toList]) := by
  have h := c10_short_line_ends_headers "a\n".toList ["X: 1\r\n".toList]
    (by decide)
  exact ⟨h.1, h.2.2⟩

theorem takeWhile_all_true {p : Char → Bool} :
    ∀ (A : Str), (∀ a ∈ A, p a = true) → A.takeWhile p = A
  | [], _ => rfl
  | a :: A, h => by
    have ha : p a = true := h a (by simp)
    simp only [List.takeWhile_cons, ha, if_true]
    rw [takeWhile_all_true A (fun x hx => h x (List.mem_cons_of_mem a hx))]

/-! ### Mimetype resolution (C7) -/

theorem lastDotSplit_eq_none : ∀ s : Str, '.' ∉ s → lastDotSplit s = none
  | [], _ => rfl
  | c :: s, h => by
    have hs := lastDotSplit_eq_none s (fun hx => h (List.mem_cons_of_mem c hx))
    have hc : ¬ (c = '.') := fun e => h (by simp [e])
    simp [lastDotSplit, hs, hc]

theorem lastDotSplit_append : ∀ (pre ext : Str), '.' ∉ ext →
    lastDotSplit (pre ++ '.' :: ext) = some (pre, ext)
  | [], ext, h => by
    simp [lastDotSplit, lastDotSplit_eq_none ext h]
  | c :: pre, ext, h => by
    have ih := lastDotSplit_append pre ext h
    simp [lastDotSplit, ih]

theorem scanTable_cons_miss (line : Str) (table : List Str) (ext : Str)
    (h : lineMatches ext line = false) :
    scanTable (line :: table) ext = scanTable table ext := by
  simp only [lineMatches] at h
  cases ht : tokenize wsDelims line with
  | nil => simp [scanTable, ht]
  | cons m exts =>
    rw [ht] at h
    have hm : ext ∉ exts := by simpa using h
    simp [scanTable, ht, hm]

theorem scanTable_cons_hit (line : Str) (table : List Str) (ext m : Str)
    (exts : List Str) (ht : tokenize wsDelims line = m :: exts)
    (hm : ext ∈ exts) : scanTable (line :: table) ext = some m := by
  simp [scanTable, ht, hm]

theorem scanTable_first_match : ∀ (t1 : List Str) (line : Str) (t2 : List Str)
    (ext m : Str) (exts : List Str),
    (∀ l ∈ t1, lineMatches ext l = false) →
    tokenize wsDelims line = m :: exts → ext ∈ exts →
    scanTable (t1 ++ line :: t2) ext = some m
  | [], line, t2, ext, m, exts, _, ht, hm => by
    simpa using scanTable_cons_hit line t2 ext m exts ht hm
  | l :: t1, line, t2, ext, m, exts, h, ht, hm => by
    have ih := scanTable_first_match t1 line t2 ext m exts
      (fun x hx => h x (List.mem_cons_of_mem l hx)) ht hm
    rw [List.cons_append, scanTable_cons_miss l _ ext (h l (by simp))]
    exact ih

theorem scanTable_none : ∀ (table : List Str) (ext : Str),
    (∀ l ∈ table, lineMatches ext l = false) → scanTable table ext = none
  | [], _, _ => rfl
  | l :: t, ext, h => by
    rw [scanTable_cons_miss l t ext (h l (by simp))]
    exact scanTable_none t ext (fun x hx => h x (List.mem_cons_of_mem l hx))

/-- C7 (amended): mimetype resolution always returns a string, and is a
pure function of the table, the default and the path (hence
deterministic and idempotent).  The extension is the text after the
last `.`; the default is returned when the path has no `.`, when the
last `.` is the first character of the path (the `ext == path` guard),
when the table cannot be opened, or when no line of the table claims
the extension; otherwise the content type of the first matching line is
returned. -/
theorem c7_mimetype (tbl : List Str) (d path pre ext : Str)
    (hpre : pre ≠ []) (hext : '.' ∉ ext) :
    ('.' ∉ path → determine_mimetype (some tbl) d path = d) ∧
    determine_mimetype (some tbl) d ('.' :: ext) = d ∧
    determine_mimetype (some tbl) d (pre ++ '.' :: ext) =
      (scanTable tbl ext).getD d ∧
    ((∀ l ∈ tbl, lineMatches ext l = false) →
      determine_mimetype (some tbl) d (pre ++ '.' :: ext) = d) ∧
    (∀ (t1 : List Str) (line : Str) (t2 : List Str) (m : Str)
        (exts : List Str),
      (∀ l ∈ t1, lineMatches ext l = false) →
      tokenize wsDelims line = m :: exts → ext ∈ exts →
      determine_mimetype (some (t1 ++ line :: t2)) d (pre ++ '.' :: ext) = m) ∧
    determine_mimetype none d path = d := by
  obtain ⟨c, pre2, rfl⟩ := List.exists_cons_of_ne_nil hpre
  have hsplit := lastDotSplit_append (c :: pre2) ext hext
  simp only [List.cons_append] at hsplit
  have hsplit0 : lastDotSplit ('.' :: ext) = some ([], ext) :=
    lastDotSplit_append [] ext hext
  refine ⟨?_, ?_, ?_, ?_, ?_, ?_⟩
  · intro hp
    simp [determine_mimetype, lastDotSplit_eq_none path hp]
  · simp [determine_mimetype, hsplit0]
  · simp [determine_mimetype, hsplit]
  · intro h
    simp [determine_mimetype, hsplit, scanTable_none tbl ext h]
  · intro t1 line t2 m exts h1 ht hm
    simp [determine_mimetype, hsplit,
      scanTable_first_match t1 line t2 ext m exts h1 ht hm]
  · cases h : lastDotSplit path with
    | none => simp [determine_mimetype, h]
    | some pe =>
      cases pe with
      | mk p e => cases p <;> simp [determine_mimetype, h]

/-- Witness for C7: `.html` resolves through the table, a leading-dot
path falls back to the default. -/
theorem c7_mimetype_witness :
    determine_mimetype (some ["text/html html htm".toList])
        "text/plain".toList ("/a/b".toList ++ '.' :: "html".toList) =
      (scanTable ["text/html html htm".toList] "html".toList).getD
        "text/plain".toList ∧
    determine_mimetype (some ["text/html html htm".toList])
        "text/plain".toList ('.' :: "html".toList) = "text/plain".toList := by
  have h := c7_mimetype ["text/html html htm".toList] "text/plain".toList
    "/noext".toList "/a/b".toList "html".toList (by decide) (by decide)
  exact ⟨h.2.2.1, h.2.1⟩

/-- Counterexample for C7 as stated: for the path `.gz` the text after
the last `.` is `gz` and the table maps `gz`, so the claim requires the
table's content type; the code's `ext == path` guard returns the
default instead. -/
theorem c7_counterexample :
    determine_mimetype (some ["application/gzip gz".toList])
        "text/plain".toList ".gz".toList = "text/plain".toList ∧
    scanTable ["application/gzip gz".toList] "gz".toList =
      some "application/gzip".toList ∧
    "text/plain".toList ≠ "application/gzip".toList := by
  exact ⟨by decide, by decide, by decide⟩

/-! ### CGI copy loop (C5) -/

/-- C5 (amended): subprocess output is copied line by line until the
subprocess closes its output or a read line begins with a NUL byte
(`strlen(buffer) > 0` fails only then); NUL-free output — including
empty lines, which do not terminate the copy — is copied verbatim to
the end of the stream. -/
theorem c5_cgi_copy_loop :
    (∀ lines : List Str, (∀ l ∈ lines, l ≠ [] ∧ ∀ c ∈ l, c ≠ '\x00') →
      cgi_copy lines = lines.flatten) ∧
    (∀ (pre : List Str) (z : Str) (t : List Str),
      (∀ l ∈ pre, l ≠ [] ∧ ∀ c ∈ l, c ≠ '\x00') →
      cgi_copy (pre ++ ('\x00' :: z) :: t) = pre.flatten) := by
  have hline : ∀ l : Str, l ≠ [] → (∀ c ∈ l, c ≠ '\x00') →
      l.isEmpty = false ∧ l.takeWhile (fun c => !(c == '\x00')) = l := by
    intro l hne hnul
    have htw : l.takeWhile (fun c => !(c == '\x00')) = l :=
      takeWhile_all_true l (fun a ha => by simp [hnul a ha])
    obtain ⟨c, l2, rfl⟩ := List.exists_cons_of_ne_nil hne
    exact ⟨rfl, htw⟩
  constructor
  · intro lines
    induction lines with
    | nil => intro _; rfl
    | cons l ls ih =>
      intro h
      have h0 := h l (by simp)
      have hl := hline l h0.1 h0.2
      simp only [cgi_copy, hl.2, hl.1, Bool.false_eq_true, if_false]
      rw [ih (fun x hx => h x (List.mem_cons_of_mem l hx))]
      simp
  · intro pre z t
    induction pre with
    | nil =>
      intro _
      simp [cgi_copy]
    | cons l ls ih =>
      intro h
      have h0 := h l (by simp)
      have hl := hline l h0.1 h0.2
      simp only [List.cons_append, List.append_eq, cgi_copy, hl.2, hl.1,
        Bool.false_eq_true, if_false]
      rw [ih (fun x hx => h x (List.mem_cons_of_mem l hx))]
      simp

/-- Witness for C5: a one-line output is copied verbatim, and a line
starting with NUL stops the copy after the previous lines. -/
theorem c5_cgi_copy_loop_witness :
    cgi_copy ["x\n".toList] = (["x\n".toList]).flatten ∧
    cgi_copy (["x\n".toList] ++ ('\x00' :: "z".toList) :: ["y\n".toList]) =
      (["x\n".toList]).flatten := by
  exact ⟨c5_cgi_copy_loop.1 ["x\n".toList] (by decide),
    c5_cgi_copy_loop.2 ["x\n".toList] "z".toList ["y\n".toList] (by decide)⟩

/-- Counterexample for C5 as stated: an empty output line mid-stream
does not end the response body — the stream `a\n`, `\n`, `b\n` is
copied whole, not truncated to `a\n` at the empty line. -/
theorem c5_counterexample :
    cgi_copy ["a\n".toList, "\n".toList, "b\n".toList] = "a\n\nb\n".toList ∧
    "a\n\nb\n".toList ≠ "a\n".toList := by
  exact ⟨by decide, by decide⟩

/-! ### CGI environment (C6) -/

/-- C6: evaluation of the environment marshaling.  The fixed request
and configuration variables are set, and `Host`, `User-Agent`,
`Accept`, `Accept-Encoding` and `Connection` get their conventional
`HTTP_*` names — but a forwarded `Accept-Language` header is stored
under `HTTP_ACCEPT` (handler.c line 244), and `HTTP_ACCEPT_LANGUAGE` is
never set. -/
theorem c6_accept_language_slip :
    headerEnvName "Host".toList = some "HTTP_HOST".toList ∧
    headerEnvName "User-Agent".toList = some "HTTP_USER_AGENT".toList ∧
    headerEnvName "Accept".toList = some "HTTP_ACCEPT".toList ∧
    headerEnvName "Accept-Encoding".toList =
      some "HTTP_ACCEPT_ENCODING".toList ∧
    headerEnvName "Connection".toList = some "HTTP_CONNECTION".toList ∧
    headerEnvName "Accept-Language".toList = some "HTTP_ACCEPT".toList ∧
    (envGet (cgi_setenv_list "www".toList "q=1".toList "client".toList
        "5000".toList "GET".toList "/u".toList "/srv/s".toList "9898".toList
        [("Accept-Language".toList, "en-US".toList)])
        "HTTP_ACCEPT_LANGUAGE".toList = none) ∧
    (envGet (cgi_setenv_list "www".toList "q=1".toList "client".toList
        "5000".toList "GET".toList "/u".toList "/srv/s".toList "9898".toList
        [("Accept-Language".toList, "en-US".toList)])
        "HTTP_ACCEPT".toList = some "en-US".toList) ∧
    (envGet (cgi_setenv_list "www".toList "q=1".toList "client".toList
        "5000".toList "GET".toList "/u".toList "/srv/s".toList "9898".toList
        [("Host".toList, "h".toList)])
        "DOCUMENT_ROOT".toList = some "www".toList) ∧
    (envGet (cgi_setenv_list "www".toList "q=1".toList "client".toList
        "5000".toList "GET".toList "/u".toList "/srv/s".toList "9898".toList
        [("Host".toList, "h".toList)])
        "QUERY_STRING".toList = some "q=1".toList) ∧
    (envGet (cgi_setenv_list "www".toList "q=1".toList "client".toList
        "5000".toList "GET".toList "/u".toList "/srv/s".toList "9898".toList
        [("Host".toList, "h".toList)])
        "HTTP_HOST".toList = some "h".toList) := by
  exact ⟨rfl, rfl, rfl, rfl, rfl, rfl, by decide, by decide, by decide,
    by decide, by decide⟩

/-! ### Static-file handler (C8) -/

theorem stream_chunks_all (w : Nat → Bool) :
    ∀ (chunks : List Str) (i : Nat),
      (∀ k, k < chunks.length → w (i + k) = true) →
      stream_chunks w i chunks = (chunks.flatten, true)
  | [], _, _ => rfl
  | ch :: rest, i, h => by
    have h0 : w i = true := by simpa using h 0 (by simp)
    have ih := stream_chunks_all w rest (i + 1) (fun k hk => by
      have h1 := h (k + 1) (by simp; omega)
      rw [show i + (k + 1) = i + 1 + k from by omega] at h1
      exact h1)
    simp [stream_chunks, h0, ih]

theorem stream_chunks_fail (w : Nat → Bool) :
    ∀ (chunks : List Str) (i j : Nat),
      j < chunks.length → w (i + j) = false →
      (stream_chunks w i chunks).2 = false
  | [], _, j, hj, _ => absurd hj (by simp)
  | ch :: rest, i, j, hj, hw => by
    by_cases h0 : w i = true
    · have hj0 : j ≠ 0 := by
        intro e
        subst e
        rw [Nat.add_zero] at hw
        rw [h0] at hw
        exact Bool.noConfusion hw
      obtain ⟨j2, rfl⟩ : ∃ j2, j = j2 + 1 := ⟨j - 1, by omega⟩
      have ih := stream_chunks_fail w rest (i + 1) j2
        (by simp at hj; omega)
        (by rw [show i + 1 + j2 = i + (j2 + 1) from by omega]; exact hw)
      simp [stream_chunks, h0, ih]
    · have h0f : w i = false := by simpa using h0
      simp [stream_chunks, h0f]

/-- C8 (amended): a failure to open the file reaches `fclose(NULL)` —
undefined behavior, before `handle_error` — so the handler never
returns a status cleanly on that path (in particular it returns
neither NOT_FOUND nor INTERNAL_SERVER_ERROR there); a failed write
while streaming (where the `fail:` cleanup is well defined) aborts the
stream and makes the handler return INTERNAL_SERVER_ERROR, not
NOT_FOUND; on success the handler streams the entire file after the
status line and resolved Content-Type and returns OK. -/
theorem c8_file_request (mt : Str) (w : Nat → Bool) (chunks : List Str)
    (j : Nat) :
    handle_file_request none mt w = .ub ∧
    Status.internalServerError ≠ Status.notFound ∧
    ((∀ k, k < chunks.length → w k = true) →
      handle_file_request (some chunks) mt w =
        .resp .ok (file_response_headers mt ++ chunks.flatten)) ∧
    (j < chunks.length → w j = false →
      (handle_file_request (some chunks) mt w).statusOf =
        some .internalServerError) := by
  refine ⟨rfl, by decide, ?_, ?_⟩
  · intro h
    have hs := stream_chunks_all w chunks 0 (fun k hk => by
      simpa using h k hk)
    simp [handle_file_request, hs]
  · intro hj hw
    have hs := stream_chunks_fail w chunks 0 j hj (by simpa using hw)
    simp [handle_file_request, FileResult.statusOf, hs]

/-- Witness for C8: a two-chunk file streams whole on a reliable
socket, and a write failure on the second chunk flips the status to
INTERNAL_SERVER_ERROR. -/
theorem c8_file_request_witness :
    handle_file_request (some ["ab".toList, "cd".toList]) "text/html".toList
        (fun _ => true) =
      .resp .ok (file_response_headers "text/html".toList ++
        (["ab".toList, "cd".toList]).flatten) ∧
    (handle_file_request (some ["ab".toList, "cd".toList]) "text/html".toList
        (fun i => decide (i = 0))).statusOf = some .internalServerError := by
  refine ⟨(c8_file_request "text/html".toList (fun _ => true)
    ["ab".toList, "cd".toList] 0).2.2.1 (fun k _ => rfl), ?_⟩
  exact (c8_file_request "text/html".toList (fun i => decide (i = 0))
    ["ab".toList, "cd".toList] 1).2.2.2 (by decide) (by decide)

/-- Counterexample for C8 as stated: on an `fopen` failure the handler
does not return INTERNAL_SERVER_ERROR — execution reaches
`fclose(NULL)` (undefined behavior) and never returns a status. -/
theorem c8_counterexample :
    (handle_file_request none "text/html".toList (fun _ => true)).statusOf =
      none ∧
    (none : Option Status) ≠ some Status.internalServerError := by
  exact ⟨rfl, by decide⟩

/-! ### Directory listing (C9) -/

/-- C9: directory entries are emitted in alphabetical (lexicographic
byte) order; `.` is excluded while every other entry — `..` and hidden
entries included — appears; each link target is the request URI joined
with the entry name, with `/` inserted exactly when the URI does not
already end in `/`; and an entry gets a thumbnail exactly when its
resolved mimetype is an `image/*` type. -/
theorem c9_browse (uri : Str) (entries : List Str) (tbl : Option (List Str))
    (d : Str) :
    List.Sorted (· ≤ ·)
      ((browse_items uri entries tbl d).map (fun e => e.name)) ∧
    (∀ e ∈ browse_items uri entries tbl d,
      e.name ≠ ".".toList ∧
      e.webpath = uri ++ browse_separator uri ++ e.name ∧
      e.thumbnail = is_image (determine_mimetype tbl d e.name)) ∧
    (∀ f ∈ entries, f ≠ ".".toList →
      f ∈ (browse_items uri entries tbl d).map (fun e => e.name)) ∧
    (∀ u2 : Str, u2.getLast? = some '/' → browse_separator u2 = []) ∧
    (∀ u2 : Str, u2.getLast? ≠ some '/' → browse_separator u2 = ['/']) := by
  have hmap : (browse_items uri entries tbl d).map (fun e => e.name) =
      List.insertionSort (· ≤ ·) (entries.filter filter_curdir) := by
    simp [browse_items, List.map_map, Function.comp_def]
  refine ⟨?_, ?_, ?_, ?_, ?_⟩
  · rw [hmap]
    exact List.sorted_insertionSort _ _
  · intro e he
    simp only [browse_items, List.mem_map] at he
    obtain ⟨f, hf, rfl⟩ := he
    have hfil : f ∈ entries.filter filter_curdir :=
      (List.perm_insertionSort (· ≤ ·) _).mem_iff.mp hf
    have hne : f ≠ ".".toList := by
      have := (List.mem_filter.mp hfil).2
      simpa [filter_curdir] using this
    exact ⟨hne, rfl, rfl⟩
  · intro f hf hne
    rw [hmap]
    rw [(List.perm_insertionSort (· ≤ ·) _).mem_iff]
    rw [List.mem_filter]
    exact ⟨hf, by simpa [filter_curdir] using hne⟩
  · intro u2 h
    simp [browse_separator, h]
  · intro u2 h
    simp [browse_separator, h]

/-- Witness for C9: a directory with entries `b`, `.`, `..`, `a.png`
under URI `/d` lists `..` (but could not list `.`), in sorted order. -/
theorem c9_browse_witness :
    List.Sorted (· ≤ ·)
      ((browse_items "/d".toList
          ["b".toList, ".".toList, "..".toList, "a.png".toList]
          (some ["image/png png".toList]) "text/plain".toList).map
        (fun e => e.name)) ∧
    "..".toList ∈ (browse_items "/d".toList
        ["b".toList, ".".toList, "..".toList, "a.png".toList]
        (some ["image/png png".toList]) "text/plain".toList).map
      (fun e => e.name) := by
  refine ⟨(c9_browse "/d".toList
    ["b".toList, ".".toList, "..".toList, "a.png".toList]
    (some ["image/png png".toList]) "text/plain".toList).1, ?_⟩
  exact (c9_browse "/d".toList
    ["b".toList, ".".toList, "..".toList, "a.png".toList]
    (some ["image/png png".toList]) "text/plain".toList).2.2.1
    "..".toList (by decide) (by decide)

/-- C1: the path resolver returns absent exactly when canonicalization of
root ++ URI fails or the canonical result does not have the canonicalized
root as a literal string prefix; consequently every non-absent resolved
path is the canonicalization of root ++ URI and has the root as a textual
prefix. -/
theorem c1_path_confinement (canon : Str → Option Str) (root uri : Str) :
    (determine_request_path canon root uri = none ↔
      canon (root ++ uri) = none ∨
        ∃ rp, canon (root ++ uri) = some rp ∧ root.isPrefixOf rp = false) ∧
    (∀ p, determine_request_path canon root uri = some p →
      canon (root ++ uri) = some p ∧ root.isPrefixOf p = true) := by
  unfold determine_request_path
  constructor
  · cases h : canon (root ++ uri) with
    | none => simp
    | some rp =>
      by_cases hp : root.isPrefixOf rp
      · simp [hp]
      · simp [hp]
  · intro p hp
    cases h : canon (root ++ uri) with
    | none => simp [h] at hp
    | some rp =>
      simp only [h] at hp
      by_cases hpre : root.isPrefixOf rp
      · simp [hpre] at hp
        subst hp
        exact ⟨rfl, hpre⟩
      · simp [hpre] at hp

/-- Witness for C1 at a concrete canonicalization oracle: the path
`/srv/a` resolves and carries the root prefix, while a canonical result
escaping the root is refused. -/
theorem c1_path_confinement_witness :
    determine_request_path
        (fun s => if s = "/srv/a".toList then some "/srv/a".toList else none)
        "/srv".toList "/a".toList = some "/srv/a".toList ∧
      ("/srv".toList).isPrefixOf "/srv/a".toList = true := by
  have h := (c1_path_confinement
      (fun s => if s = "/srv/a".toList then some "/srv/a".toList else none)
      "/srv".toList "/a".toList).2 ("/srv/a".toList) (by decide)
  exact ⟨by decide, h.2⟩

/-- C2: dispatch precedence on a resolved path — directory → browse;
regular and executable → CGI; regular, not executable, readable → file;
other regular files and special files → 500; stat failure → 500 (not
404); and an absent resolved path yields 404 regardless of the stat and
access oracles (no stat is consulted). -/
theorem c2_dispatch (stat : Str → Option StatInfo) (xok : Str → Bool)
    (p : Str) (sb : StatInfo) :
    (handle_request true none stat xok = .error .notFound) ∧
    (stat p = none →
      handle_request true (some p) stat xok = .error .internalServerError) ∧
    (stat p = some sb → sb.isDir = true →
      handle_request true (some p) stat xok = .browse) ∧
    (stat p = some sb → sb.isDir = false → sb.isReg = true → xok p = true →
      handle_request true (some p) stat xok = .cgi) ∧
    (stat p = some sb → sb.isDir = false → sb.isReg = true → xok p = false →
      sb.irusr = true → handle_request true (some p) stat xok = .file) ∧
    (stat p = some sb → sb.isDir = false → sb.isReg = true → xok p = false →
      sb.irusr = false →
      handle_request true (some p) stat xok = .error .internalServerError) ∧
    (stat p = some sb → sb.isDir = false → sb.isReg = false →
      handle_request true (some p) stat xok = .error .internalServerError) ∧
    (handle_request false (some p) stat xok = .error .badRequest) := by
  refine ⟨rfl, ?_, ?_, ?_, ?_, ?_, ?_, rfl⟩ <;>
    intros <;>
    simp_all [handle_request, dispatch_request]

/-- Witness for C2: a readable non-executable regular file is routed to
the static-file handler. -/
theorem c2_dispatch_witness :
    handle_request true (some "/srv/f".toList)
        (fun _ => some ⟨false, true, true⟩) (fun _ => false) = .file := by
  exact (c2_dispatch (fun _ => some ⟨false, true, true⟩) (fun _ => false)
    ("/srv/f".toList) ⟨false, true, true⟩).2.2.2.2.1 rfl rfl rfl rfl rfl

end CServer
